import Mathlib

/-!
# Verification of the calendar-summary pipeline (`src/main.py`)

Shallow embedding of the core pipeline of the calendar assistant:
normalization of raw iCalendar occurrences (`parse_ics`), window filtering
(`within_range`), deduplication and sorting (`dedupe_and_sort`), day grouping
(`group_by_day`), window calculation (`daterange_window`) and the per-feed
error-handling loop of `main`.

Modelling choices:
* Instants are integers counting seconds.  The target timezone is a fixed
  UTC offset `tz : Int` (seconds); `pytz`'s `localize` of a wall-clock value
  `w` yields the absolute instant `w - tz`, and `astimezone` re-expresses an
  absolute instant without changing it, so it is the identity on our instants.
  Daylight-saving transitions and `pytz`'s historical-offset quirks are
  outside this model.
* A raw temporal value (`.dt` of an icalendar property) is date-only,
  a naive ("floating") datetime, or a zoned datetime carrying its own offset.
* Days are numbered so that day `d` spans wall-clock seconds
  `[d*86400, (d+1)*86400)`; the weekday convention fixes day `0` to a Monday
  (Python's `weekday()` is Mon=0..Sun=6).
* Strings are already decoded (Python `safe_str` handles bytes); the
  placeholder title for an empty summary is the literal used by the source.
-/

namespace CalendarAssistant

/-- A raw temporal value as delivered by the feed expansion: a date with no
time-of-day, a naive (zone-less, "floating") datetime, or a zoned datetime
carrying its own UTC offset.  Wall-clock values are in seconds; `dateOnly`
carries a day number. -/
inductive RawTemporal where
  | dateOnly (day : Int)
  | naiveDT (wall : Int)
  | zonedDT (wall : Int) (offset : Int)
  deriving DecidableEq

/-- `True` exactly for date-only values (Python:
`isinstance(v, date) and not isinstance(v, datetime)`). -/
def RawTemporal.isDateOnly : RawTemporal → Bool
  | .dateOnly _ => true
  | _ => false

/-- `True` exactly for datetime values (Python: `isinstance(v, datetime)`). -/
def RawTemporal.isDatetime : RawTemporal → Bool
  | .dateOnly _ => false
  | _ => true

/-- One expanded component from `recurring_ical_events`: component name
(only `"VEVENT"` is processed), summary, location, `DTSTART` and optional
`DTEND`. -/
structure RawOcc where
  component : String
  summary : String
  location : String
  dtstart : RawTemporal
  dtend : Option RawTemporal
  deriving DecidableEq

/-- The canonical event dict built by `parse_ics`.  `start`/`end_` are
absolute instants (the source stores timezone-aware datetimes; comparisons,
the dedup key and sorting all act on the absolute instant). -/
structure Event where
  title : String
  start : Int
  end_ : Int
  is_all_day : Bool
  location : String
  calendar_name : String
  deriving DecidableEq

/-- `tz.localize(w)`: interpret wall-clock seconds `w` as being in the target
timezone (fixed offset `tz`), producing the absolute instant. -/
def localize (tz : Int) (w : Int) : Int := w - tz

/-- End-of-event computation of `parse_ics` in the timed (non-all-day)
branch: a naive `DTEND` is localized, a zoned one is taken at its own
offset, a date-only one becomes midnight of that date in the target zone,
and a missing one defaults to `start + 1 hour`. -/
def timedEnd (tz : Int) (start_dt : Int) : Option RawTemporal → Int
  | some (.naiveDT w) => localize tz w
  | some (.zonedDT w o) => w - o
  | some (.dateOnly d) => localize tz (d * 86400)
  | none => start_dt + 3600

/-- The body of the `for component in comps` loop of `parse_ics`: normalize
one raw occurrence into an `Event`.  The final `astimezone(tz)` of the
source re-expresses the same absolute instant and is the identity here. -/
def parse_ics_event (tz : Int) (calendar_name : String) (occ : RawOcc) : Event :=
  let title := if occ.summary = "" then "(Bez názvu)" else occ.summary
  match occ.dtstart with
  | .dateOnly d =>
      -- all-day: midnight of the date in the target timezone; a date-only
      -- DTEND is taken as midnight of its date, anything else (missing or a
      -- datetime) defaults to start + 1 day
      let start_dt := localize tz (d * 86400)
      let end_dt :=
        match occ.dtend with
        | some (.dateOnly d2) => localize tz (d2 * 86400)
        | _ => start_dt + 86400
      ⟨title, start_dt, end_dt, true, occ.location, calendar_name⟩
  | .naiveDT w =>
      let start_dt := localize tz w
      ⟨title, start_dt, timedEnd tz start_dt occ.dtend, false, occ.location, calendar_name⟩
  | .zonedDT w o =>
      let start_dt := w - o
      ⟨title, start_dt, timedEnd tz start_dt occ.dtend, false, occ.location, calendar_name⟩

/-- `parse_ics` over the expanded component list: skip everything that is
not a `VEVENT`, normalize the rest. -/
def parse_ics (tz : Int) (calendar_name : String) (comps : List RawOcc) : List Event :=
  (comps.filter (fun c => c.component = "VEVENT")).map (parse_ics_event tz calendar_name)

example :
    parse_ics_event 0 "A" ⟨"VEVENT", "t", "", .naiveDT 7200, some (.naiveDT 3600)⟩ =
      ⟨"t", 7200, 3600, false, "", "A"⟩ := by decide

example :
    parse_ics_event 0 "A" ⟨"VEVENT", "t", "", .dateOnly 3, none⟩ =
      ⟨"t", 3 * 86400, 4 * 86400, true, "", "A"⟩ := by decide

example :
    parse_ics_event 3600 "A" ⟨"VEVENT", "", "loc", .dateOnly 0, some (.naiveDT 50)⟩ =
      ⟨"(Bez názvu)", -3600, 82800, true, "loc", "A"⟩ := by decide

/-- Claim C1 counterexample: the normalizer is *not* inversion-free.  For the
concrete occurrence with a naive start at wall-clock second 7200 and a
supplied naive end at second 3600 (end before start), `parse_ics`
normalization produces an event with `end < start`, contradicting the claim
that `end >= start` holds for every raw occurrence. -/
theorem C1_counterexample :
    (parse_ics_event 0 "A" ⟨"VEVENT", "t", "", .naiveDT 7200, some (.naiveDT 3600)⟩).end_ <
      (parse_ics_event 0 "A" ⟨"VEVENT", "t", "", .naiveDT 7200, some (.naiveDT 3600)⟩).start := by
  decide

/-- Claim C1 amended: when the feed supplies *no* end value, the normalizer
produces `end > start` by construction (start + 1 hour for timed, start +
1 day for all-day occurrences); a supplied end value is passed through
unrepaired, so an end lying before the start after normalization yields an
inverted interval (see `C1_counterexample`). -/
theorem C1_amended (tz : Int) (cal : String) (occ : RawOcc)
    (h : occ.dtend = none) :
    (parse_ics_event tz cal occ).start < (parse_ics_event tz cal occ).end_ := by
  cases hs : occ.dtstart <;>
    simp [parse_ics_event, timedEnd, localize, h, hs]

/-- Witness for `C1_amended` at a concrete occurrence. -/
theorem C1_amended_witness :
    (RawOcc.mk "VEVENT" "t" "" (.naiveDT 0) none).dtend = none ∧
      (parse_ics_event 0 "A" (RawOcc.mk "VEVENT" "t" "" (.naiveDT 0) none)).start <
        (parse_ics_event 0 "A" (RawOcc.mk "VEVENT" "t" "" (.naiveDT 0) none)).end_ :=
  ⟨rfl, C1_amended 0 "A" _ rfl⟩

/-- Claim C6: for every raw occurrence, `is_all_day` of the normalized event is
true exactly when the raw start is date-only; and when no end value is
supplied, the normalized end is `start + 1 day` (86400 s) for date-only
(all-day) starts and `start + 1 hour` (3600 s) for timed starts. -/
theorem C6_default_end (tz : Int) (cal : String) (occ : RawOcc) :
    ((parse_ics_event tz cal occ).is_all_day = occ.dtstart.isDateOnly) ∧
      (occ.dtend = none →
        (occ.dtstart.isDateOnly = true →
          (parse_ics_event tz cal occ).end_ = (parse_ics_event tz cal occ).start + 86400) ∧
        (occ.dtstart.isDateOnly = false →
          (parse_ics_event tz cal occ).end_ = (parse_ics_event tz cal occ).start + 3600)) := by
  constructor
  · cases hs : occ.dtstart <;> simp [parse_ics_event, hs, RawTemporal.isDateOnly]
  · intro he
    cases hs : occ.dtstart <;>
      simp [parse_ics_event, timedEnd, localize, hs, he, RawTemporal.isDateOnly]

/-- Witness for `C6_default_end`: an all-day occurrence with no end gets a
one-day duration, a timed one a one-hour duration. -/
theorem C6_default_end_witness :
    (parse_ics_event 0 "A" (RawOcc.mk "VEVENT" "t" "" (.dateOnly 3) none)).is_all_day = true ∧
      (parse_ics_event 0 "A" (RawOcc.mk "VEVENT" "t" "" (.dateOnly 3) none)).end_ =
        (parse_ics_event 0 "A" (RawOcc.mk "VEVENT" "t" "" (.dateOnly 3) none)).start + 86400 ∧
      (parse_ics_event 0 "A" (RawOcc.mk "VEVENT" "t" "" (.naiveDT 60) none)).end_ =
        (parse_ics_event 0 "A" (RawOcc.mk "VEVENT" "t" "" (.naiveDT 60) none)).start + 3600 := by
  refine ⟨?_, ?_, ?_⟩
  · exact (C6_default_end 0 "A" _).1
  · exact ((C6_default_end 0 "A" _).2 rfl).1 rfl
  · exact ((C6_default_end 0 "A" _).2 rfl).2 rfl

/-- Claim C10: when the raw start is date-only but the supplied end is a datetime
(naive or zoned), the supplied end is ignored entirely: the normalized event
equals the one obtained with no end at all, and its end is `start + 1 day`. -/
theorem C10_dateOnly_start_ignores_datetime_end (tz : Int) (cal : String) (occ : RawOcc)
    (d : Int) (t : RawTemporal) (hs : occ.dtstart = .dateOnly d)
    (he : occ.dtend = some t) (ht : t.isDatetime = true) :
    parse_ics_event tz cal occ =
        parse_ics_event tz cal ⟨occ.component, occ.summary, occ.location, occ.dtstart, none⟩ ∧
      (parse_ics_event tz cal occ).end_ = (parse_ics_event tz cal occ).start + 86400 := by
  cases t <;> simp_all [parse_ics_event, timedEnd, localize, RawTemporal.isDatetime]

/-- Witness for `C10_dateOnly_start_ignores_datetime_end` at a concrete
occurrence: date-only start at day 5, zoned datetime end. -/
theorem C10_witness :
    parse_ics_event 0 "A" (RawOcc.mk "VEVENT" "t" "" (.dateOnly 5) (some (.zonedDT 42 0))) =
        parse_ics_event 0 "A" (RawOcc.mk "VEVENT" "t" "" (.dateOnly 5) none) ∧
      (parse_ics_event 0 "A"
          (RawOcc.mk "VEVENT" "t" "" (.dateOnly 5) (some (.zonedDT 42 0)))).end_ =
        (parse_ics_event 0 "A"
          (RawOcc.mk "VEVENT" "t" "" (.dateOnly 5) (some (.zonedDT 42 0)))).start + 86400 :=
  C10_dateOnly_start_ignores_datetime_end 0 "A" _ 5 (.zonedDT 42 0) rfl rfl rfl

/-- `within_range(ev, start, end)`: keep an event iff
`not (ev["end"] <= start or ev["start"] >= end)`.  Timezone-aware datetime
comparison is comparison of absolute instants. -/
def within_range (ev : Event) (start end_ : Int) : Bool :=
  !(decide (ev.end_ ≤ start) || decide (ev.start ≥ end_))

/-- Claim C2: `within_range` keeps an event iff not (its end is at or before the
window start, or its start is at or after the window end); in particular a
zero-duration event sitting exactly at the window start or exactly at the
window end is excluded, and any event with `start < window_end` and
`end > window_start` is included. -/
theorem C2_within_range (ev : Event) (s e : Int) :
    (within_range ev s e = true ↔ ¬(ev.end_ ≤ s ∨ ev.start ≥ e)) ∧
      (ev.start = ev.end_ → ev.start = s ∨ ev.start = e → within_range ev s e = false) ∧
      (ev.start < e → s < ev.end_ → within_range ev s e = true) := by
  refine ⟨?_, ?_, ?_⟩ <;> simp [within_range] <;> omega

/-- Witness for `C2_within_range`: a zero-duration event at the window end
is excluded; an overlapping event is included. -/
theorem C2_within_range_witness :
    within_range (Event.mk "t" 10 10 false "" "A") 0 10 = false ∧
      within_range (Event.mk "t" 5 6 false "" "A") 0 10 = true := by
  constructor
  · exact (C2_within_range (Event.mk "t" 10 10 false "" "A") 0 10).2.1 rfl (Or.inr rfl)
  · exact (C2_within_range (Event.mk "t" 5 6 false "" "A") 0 10).2.2 (by decide) (by decide)

/-- `daterange_window(mode, tz)` over a wall-clock "now" in the target
timezone (seconds).  Day `d` covers wall seconds `[d*86400, (d+1)*86400)`;
`datetime(y, m, d, h, mm, ss)` is `d*86400 + h*3600 + mm*60 + ss`;
`replace(hour=h, minute=mm, second=ss, microsecond=0)` keeps the date and
sets the time-of-day; `weekday()` is Mon=0..Sun=6 with day 0 a Monday.
The human-readable `title` (a formatted date string, constrained by no
claim) is not modelled; invalid modes raise, modelled as `none`. -/
def daterange_window (mode : String) (now : Int) : Option (Int × Int) :=
  if mode = "daily" then
    let target := now + 86400
    let d := target / 86400
    some (d * 86400, d * 86400 + (23 * 3600 + 59 * 60 + 59))
  else if mode = "weekly" then
    let weekday := (now / 86400) % 7
    let days_to_next_monday := (7 - weekday) % 7
    let monday := ((now + days_to_next_monday * 86400) / 86400) * 86400
    some (monday, ((monday + 6 * 86400) / 86400) * 86400 + (23 * 3600 + 59 * 60 + 59))
  else none

/-- The wall-clock day of an instant `t` of the target timezone. -/
def dayOf (t : Int) : Int := t / 86400

/-- The time-of-day (seconds since midnight) of a wall-clock instant. -/
def todOf (t : Int) : Int := t % 86400

/-- Python's `weekday()` for a day number: Mon=0..Sun=6 (day 0 is a Monday). -/
def weekdayOf (d : Int) : Int := d % 7

/-- Claim C4: in daily mode the window starts at midnight of the day after the
current day and ends at 23:59:59 of that same date. -/
theorem C4_daily_window (now s e : Int)
    (h : daterange_window "daily" now = some (s, e)) :
    dayOf s = dayOf now + 1 ∧ todOf s = 0 ∧ dayOf e = dayOf now + 1 ∧ todOf e = 86399 := by
  simp only [daterange_window, if_pos rfl, Option.some.injEq, Prod.mk.injEq] at h
  obtain ⟨hs, he⟩ := h
  unfold dayOf todOf
  omega

/-- Witness for `C4_daily_window` at a concrete "now" (second 100 of day 0). -/
theorem C4_daily_window_witness :
    daterange_window "daily" 100 = some (86400, 86400 + 86399) ∧
      dayOf 86400 = dayOf 100 + 1 ∧ todOf 86400 = 0 ∧
      dayOf (86400 + 86399) = dayOf 100 + 1 ∧ todOf (86400 + 86399) = 86399 :=
  ⟨by decide, C4_daily_window 100 86400 (86400 + 86399) (by decide)⟩

/-- Claim C5: in weekly mode the window starts at a midnight instant `s`; if today
is Monday, `s` is today's midnight; otherwise `dayOf s` is the unique Monday
strictly after today and at most 7 days ahead (the *next* Monday, so e.g. on
a Wednesday the coming Monday, not the current week's); the window ends at
23:59:59 of the Sunday six days after that Monday. -/
theorem C5_weekly_window (now s e : Int)
    (h : daterange_window "weekly" now = some (s, e)) :
    todOf s = 0 ∧ weekdayOf (dayOf s) = 0 ∧
      (weekdayOf (dayOf now) = 0 → dayOf s = dayOf now) ∧
      (weekdayOf (dayOf now) ≠ 0 → dayOf now < dayOf s ∧ dayOf s ≤ dayOf now + 7) ∧
      dayOf e = dayOf s + 6 ∧ weekdayOf (dayOf e) = 6 ∧ todOf e = 86399 := by
  simp only [daterange_window, if_neg (by decide : ¬("weekly" = "daily")), if_pos rfl,
    Option.some.injEq, Prod.mk.injEq] at h
  obtain ⟨hs, he⟩ := h
  unfold dayOf todOf weekdayOf
  omega

/-- Witness for `C5_weekly_window`: "now" at noon of day 2 (a Wednesday
under the day-0-is-Monday convention); the window starts on day 7, the next
Monday, not day 0. -/
theorem C5_weekly_window_witness :
    daterange_window "weekly" (2 * 86400 + 43200) = some (7 * 86400, 13 * 86400 + 86399) ∧
      weekdayOf (dayOf (7 * 86400)) = 0 ∧ dayOf (2 * 86400 + 43200) < dayOf (7 * 86400) :=
  ⟨by decide,
    (C5_weekly_window (2 * 86400 + 43200) (7 * 86400) (13 * 86400 + 86399) (by decide)).2.1,
    ((C5_weekly_window (2 * 86400 + 43200) (7 * 86400) (13 * 86400 + 86399)
      (by decide)).2.2.2.1 (by decide)).1⟩

/-- The deduplication key of `dedupe_and_sort`:
`(ev["title"], ev["start"], ev["end"], ev["calendar_name"])`. -/
def evKey (ev : Event) : String × Int × Int × String :=
  (ev.title, ev.start, ev.end_, ev.calendar_name)

/-- The `for ev in events` loop of `dedupe_and_sort`: skip an event whose
key is already in `keyset`, otherwise add its key and keep it. -/
def dedupeAux (seen : List (String × Int × Int × String)) : List Event → List Event
  | [] => []
  | ev :: rest =>
    if evKey ev ∈ seen then dedupeAux seen rest
    else ev :: dedupeAux (evKey ev :: seen) rest

/-- The sort key order of `dedupe_and_sort`: Python's
`key=lambda e: (e["start"], e["title"])`, i.e. by start ascending, ties by
title ascending lexicographically. -/
def evLE (a b : Event) : Prop :=
  a.start < b.start ∨ (a.start = b.start ∧ a.title ≤ b.title)

instance : DecidableRel evLE := fun a b => by
  unfold evLE; infer_instance

instance : IsTotal Event evLE := by
  constructor
  intro a b
  rcases lt_trichotomy a.start b.start with h | h | h
  · exact Or.inl (Or.inl h)
  · rcases le_total a.title b.title with ht | ht
    · exact Or.inl (Or.inr ⟨h, ht⟩)
    · exact Or.inr (Or.inr ⟨h.symm, ht⟩)
  · exact Or.inr (Or.inl h)

instance : IsTrans Event evLE := by
  constructor
  intro a b c hab hbc
  rcases hab with h1 | ⟨h1, t1⟩ <;> rcases hbc with h2 | ⟨h2, t2⟩
  · exact Or.inl (h1.trans h2)
  · exact Or.inl (h2 ▸ h1)
  · exact Or.inl (h1 ▸ h2)
  · exact Or.inr ⟨h1.trans h2, t1.trans t2⟩

/-- `dedupe_and_sort`: drop events whose key was already seen, then sort by
`(start, title)`. -/
def dedupe_and_sort (events : List Event) : List Event :=
  List.insertionSort evLE (dedupeAux [] events)

/-- Companion definition following the claim's words: keep the first
occurrence of each `(title, start, end, calendar_name)` tuple in input
order, removing exactly the events whose tuple equals that of an earlier
event. -/
def keepFirstOccurrences : List Event → List Event
  | [] => []
  | ev :: rest =>
    ev :: keepFirstOccurrences (rest.filter fun e2 => decide (evKey e2 ≠ evKey ev))
termination_by l => l.length
decreasing_by
  simpa using Nat.lt_succ_of_le (List.length_filter_le _ rest)

/-- The seen-set loop of `dedupe_and_sort` computes first occurrences: with
keys `seen` already recorded, it agrees with `keepFirstOccurrences` on the
events whose keys are not in `seen`. -/
theorem dedupeAux_eq_keepFirstOccurrences (l : List Event)
    (seen : List (String × Int × Int × String)) :
    dedupeAux seen l = keepFirstOccurrences (l.filter fun e => decide (evKey e ∉ seen)) := by
  induction l generalizing seen with
  | nil => simp [dedupeAux, keepFirstOccurrences]
  | cons ev rest ih =>
    by_cases hm : evKey ev ∈ seen
    · rw [dedupeAux, if_pos hm, ih seen, List.filter_cons]
      simp [hm]
    · rw [dedupeAux, if_neg hm, ih (evKey ev :: seen), List.filter_cons]
      have hd : (decide (evKey ev ∉ seen)) = true := by simpa using hm
      rw [hd, if_pos rfl, keepFirstOccurrences.eq_2, List.filter_filter]
      congr 2
      apply List.filter_congr
      intro e _
      simp [List.mem_cons, not_or]

/-- Every key of the input survives into `keepFirstOccurrences`. -/
theorem keepFirstOccurrences_covers (l : List Event) :
    ∀ ev ∈ l, ∃ e2 ∈ keepFirstOccurrences l, evKey e2 = evKey ev := by
  induction l using keepFirstOccurrences.induct with
  | case1 => intro ev h; cases h
  | case2 x rest ih =>
    intro ev h
    rw [keepFirstOccurrences.eq_2]
    rcases List.mem_cons.mp h with rfl | hrest
    · exact ⟨ev, List.mem_cons_self _ _, rfl⟩
    · by_cases hk : evKey ev = evKey x
      · exact ⟨x, List.mem_cons_self _ _, hk.symm⟩
      · obtain ⟨e2, he2, hke⟩ :=
          ih ev (List.mem_filter.mpr ⟨hrest, by simpa using hk⟩)
        exact ⟨e2, List.mem_cons_of_mem _ he2, hke⟩

/-- Claim C3: `dedupe_and_sort` returns, up to the final sort, exactly the events
kept by first-occurrence deduplication on the `(title, start, end,
calendar_name)` tuple (`keepFirstOccurrences`); the result is sorted by
start ascending with ties by title ascending lexicographically; and every
key of the input — in particular each of two events differing only in
`calendar_name` — is represented in the output. -/
theorem C3_dedupe_and_sort (l : List Event) :
    List.Sorted evLE (dedupe_and_sort l) ∧
      (dedupe_and_sort l).Perm (keepFirstOccurrences l) ∧
      ∀ ev ∈ l, ∃ e2 ∈ dedupe_and_sort l, evKey e2 = evKey ev := by
  have hd : dedupeAux [] l = keepFirstOccurrences l := by
    simpa using dedupeAux_eq_keepFirstOccurrences l []
  refine ⟨List.sorted_insertionSort evLE _, ?_, ?_⟩
  · rw [dedupe_and_sort, hd]
    exact List.perm_insertionSort evLE _
  · intro ev hev
    obtain ⟨e2, he2, hke⟩ := keepFirstOccurrences_covers l ev hev
    refine ⟨e2, ?_, hke⟩
    rw [dedupe_and_sort, hd]
    exact ((List.perm_insertionSort evLE _).mem_iff).mpr he2

/-- Witness for `C3_dedupe_and_sort` on a concrete list: a duplicate of the
first event is removed, both events with distinct keys survive, and the
output is the sorted two-element list. -/
theorem C3_dedupe_and_sort_witness :
    dedupe_and_sort
        [Event.mk "b" 10 20 false "" "A", Event.mk "a" 0 5 false "" "B",
          Event.mk "b" 10 20 false "" "A"] =
      [Event.mk "a" 0 5 false "" "B", Event.mk "b" 10 20 false "" "A"] ∧
    ∃ e2 ∈ dedupe_and_sort
        [Event.mk "b" 10 20 false "" "A", Event.mk "a" 0 5 false "" "B",
          Event.mk "b" 10 20 false "" "A"],
      evKey e2 = evKey (Event.mk "b" 10 20 false "" "A") := by
  constructor
  · decide
  · exact (C3_dedupe_and_sort
      [Event.mk "b" 10 20 false "" "A", Event.mk "a" 0 5 false "" "B",
        Event.mk "b" 10 20 false "" "A"]).2.2
      (Event.mk "b" 10 20 false "" "A") (by decide)

/-- Zero-padded two-digit rendering used by `strftime` fields. -/
def two_digits (n : Nat) : String :=
  if n < 10 then "0" ++ toString n else toString n

/-- `strftime("%H:%M")` of an instant displayed in the target timezone:
hours and minutes of its wall-clock time-of-day. -/
def fmt_hm (tz : Int) (t : Int) : String :=
  let tod := ((t + tz) % 86400).toNat
  two_digits (tod / 3600) ++ ":" ++ two_digits (tod % 3600 / 60)

/-- The grouping key `ev["start"].strftime("%A %d.%m.%Y")` of `group_by_day`,
modelled as the wall-clock day number of the event's start: the formatted
weekday+date string is determined by, and injective in, this day number. -/
def day_label (tz : Int) (ev : Event) : Int := (ev.start + tz) / 86400

/-- The per-event dict built inside `group_by_day`. -/
structure GroupItem where
  title : String
  start_str : String
  end_str : String
  is_all_day : Bool
  location : String
  calendar_name : String
  deriving DecidableEq

/-- The `item` dict of `group_by_day`: formatted start/end clock times are
produced for every event, all-day or not. -/
def group_item (tz : Int) (ev : Event) : GroupItem :=
  ⟨ev.title, fmt_hm tz ev.start, fmt_hm tz ev.end_, ev.is_all_day, ev.location,
    ev.calendar_name⟩

/-- `grouped[day_label].append(item)` on an insertion-ordered dict
(`defaultdict` preserves key insertion order): append to the existing
bucket of the key, or add a new bucket at the end. -/
def insertGrouped (g : List (Int × List GroupItem)) (k : Int) (it : GroupItem) :
    List (Int × List GroupItem) :=
  match g with
  | [] => [(k, [it])]
  | (k2, its) :: rest =>
    if k2 = k then (k2, its ++ [it]) :: rest else (k2, its) :: insertGrouped rest k it

/-- `group_by_day`: bucket events by the day label of their start, keys in
order of first appearance, values in input order. -/
def group_by_day (tz : Int) (events : List Event) : List (Int × List GroupItem) :=
  events.foldl (fun g ev => insertGrouped g (day_label tz ev) (group_item tz ev)) []

/-- Concatenation of the per-day lists in stored (first-appearance) order. -/
def flattenGroups (g : List (Int × List GroupItem)) : List GroupItem :=
  (g.map Prod.snd).flatten

example :
    group_by_day 0 [Event.mk "a" 0 5 false "" "A", Event.mk "b" 10 20 false "" "A",
        Event.mk "c" 86400 86401 false "" "A"] =
      [(0, [group_item 0 (Event.mk "a" 0 5 false "" "A"),
            group_item 0 (Event.mk "b" 10 20 false "" "A")]),
       (1, [group_item 0 (Event.mk "c" 86400 86401 false "" "A")])] := by
  decide

/-- Inserting an item under a key `k` that is at least every stored key of a
strictly key-increasing grouping appends the item at the very end of the
flattened sequence, and preserves strict key order, the key bound, and the
fact that every key is an old key or `k`. -/
theorem insertGrouped_spec (g : List (Int × List GroupItem)) (k : Int) (it : GroupItem)
    (hord : g.Pairwise (fun p q => p.1 < q.1)) (hle : ∀ p ∈ g, p.1 ≤ k) :
    flattenGroups (insertGrouped g k it) = flattenGroups g ++ [it] ∧
      (insertGrouped g k it).Pairwise (fun p q => p.1 < q.1) ∧
      (∀ p ∈ insertGrouped g k it, p.1 ≤ k) ∧
      (∀ p ∈ insertGrouped g k it, p.1 = k ∨ p.1 ∈ g.map Prod.fst) := by
  induction g with
  | nil =>
    refine ⟨rfl, ?_, ?_, ?_⟩ <;> simp [insertGrouped]
  | cons p rest ih =>
    obtain ⟨k2, its⟩ := p
    by_cases hk : k2 = k
    · subst hk
      have hrest : rest = [] := by
        cases rest with
        | nil => rfl
        | cons q tl =>
          exact absurd (hle q (by simp)) (not_le.mpr (List.rel_of_pairwise_cons hord (by simp)))
      subst hrest
      refine ⟨?_, ?_, ?_, ?_⟩ <;> simp [insertGrouped, flattenGroups]
    · have hord' := hord.of_cons
      have hle' : ∀ p ∈ rest, p.1 ≤ k := fun p hp => hle p (List.mem_cons_of_mem _ hp)
      obtain ⟨ihf, ihord, ihle, ihkeys⟩ := ih hord' hle'
      have hk2k : k2 < k := lt_of_le_of_ne (hle (k2, its) (by simp)) hk
      refine ⟨?_, ?_, ?_, ?_⟩
      · simp only [insertGrouped, if_neg hk, flattenGroups, List.map_cons, List.flatten_cons]
        rw [show (List.map Prod.snd (insertGrouped rest k it)).flatten
              = flattenGroups (insertGrouped rest k it) from rfl, ihf]
        simp [flattenGroups]
      · rw [insertGrouped, if_neg hk]
        refine List.Pairwise.cons ?_ ihord
        intro q hq
        rcases ihkeys q hq with h | h
        · simpa [h] using hk2k
        · obtain ⟨q2, hq2, hq21⟩ := List.mem_map.mp h
          rw [← hq21]
          exact List.rel_of_pairwise_cons hord hq2
      · rw [insertGrouped, if_neg hk]
        intro q hq
        rcases List.mem_cons.mp hq with rfl | hq'
        · exact le_of_lt hk2k
        · exact ihle q hq'
      · rw [insertGrouped, if_neg hk]
        intro q hq
        rcases List.mem_cons.mp hq with rfl | hq'
        · simp
        · rcases ihkeys q hq' with h | h
          · exact Or.inl h
          · exact Or.inr (by simpa using Or.inr h)

/-- Folding the grouping step over events with nondecreasing day labels,
starting from a strictly key-increasing grouping whose keys are at most
every remaining day label, appends the items in input order. -/
theorem group_fold_flatten (tz : Int) (evs : List Event) :
    ∀ g : List (Int × List GroupItem),
      g.Pairwise (fun p q => p.1 < q.1) →
      (∀ p ∈ g, ∀ ev ∈ evs, p.1 ≤ day_label tz ev) →
      evs.Pairwise (fun a b => day_label tz a ≤ day_label tz b) →
      flattenGroups
          (evs.foldl (fun g ev => insertGrouped g (day_label tz ev) (group_item tz ev)) g) =
        flattenGroups g ++ evs.map (group_item tz) := by
  induction evs with
  | nil => intro g _ _ _; simp
  | cons ev rest ih =>
    intro g hord hle hdays
    have hleEv : ∀ p ∈ g, p.1 ≤ day_label tz ev := fun p hp =>
      hle p hp ev (List.mem_cons_self _ _)
    obtain ⟨hf, hord', hle', hkeys'⟩ :=
      insertGrouped_spec g (day_label tz ev) (group_item tz ev) hord hleEv
    rw [List.foldl_cons,
      ih (insertGrouped g (day_label tz ev) (group_item tz ev)) hord' ?_ hdays.of_cons,
      hf]
    · simp
    · intro p hp e he
      rcases hkeys' p hp with h | h
      · rw [h]
        exact List.rel_of_pairwise_cons hdays he
      · obtain ⟨q, hq, hq1⟩ := List.mem_map.mp h
        rw [← hq1]
        exact hle q hq e (List.mem_cons_of_mem _ he)

/-- Claim C7: on an input sorted by `(start, title)`, concatenating the per-day
lists of `group_by_day` in the stored (first-appearance) key order yields
exactly the input sequence of per-event items — same events, same order,
none added, dropped or duplicated. -/
theorem C7_group_by_day_flatten (tz : Int) (evs : List Event)
    (hs : List.Sorted evLE evs) :
    flattenGroups (group_by_day tz evs) = evs.map (group_item tz) := by
  have hdays : evs.Pairwise (fun a b => day_label tz a ≤ day_label tz b) := by
    refine hs.imp ?_
    intro a b hab
    have hst : a.start ≤ b.start := by
      rcases hab with h | ⟨h, _⟩
      · exact le_of_lt h
      · exact le_of_eq h
    unfold day_label
    omega
  simpa using group_fold_flatten tz evs [] (by simp) (by simp) hdays

/-- Witness for `C7_group_by_day_flatten` on a concrete sorted list spanning
two days. -/
theorem C7_group_by_day_flatten_witness :
    flattenGroups (group_by_day 0
        [Event.mk "a" 0 5 false "" "A", Event.mk "b" 10 20 false "" "A",
          Event.mk "c" 86400 86500 false "" "A"]) =
      List.map (group_item 0)
        [Event.mk "a" 0 5 false "" "A", Event.mk "b" 10 20 false "" "A",
          Event.mk "c" 86400 86500 false "" "A"] :=
  C7_group_by_day_flatten 0
    [Event.mk "a" 0 5 false "" "A", Event.mk "b" 10 20 false "" "A",
      Event.mk "c" 86400 86500 false "" "A"]
    (by simp [List.sorted_cons, evLE])

/-- Claim C8 counterexample: the grouped item of an all-day event does *not*
carry an empty or placeholder time string: `group_by_day` formats the
start/end clock times unconditionally, so a normalized all-day event (start
at midnight) gets the formatted clock time `"00:00"`, which is not empty.
(The em-dash placeholder for all-day events is substituted only later, in
the HTML template.) -/
theorem C8_counterexample :
    (parse_ics_event 0 "A" ⟨"VEVENT", "t", "", .dateOnly 0, none⟩).is_all_day = true ∧
      (group_item 0 (parse_ics_event 0 "A" ⟨"VEVENT", "t", "", .dateOnly 0, none⟩)).start_str
          = "00:00" ∧
      ("00:00" : String) ≠ "" := by
  exact ⟨rfl, by decide, by decide⟩

/-- Claim C8 amended: for every all-day (date-only start) occurrence, the grouped
item carries the unconditionally `strftime`-formatted clock times of its
start and end; since normalized all-day bounds are midnights this reads
`"00:00"` (for the end whenever no end value was supplied), not an empty or
placeholder string — the placeholder is applied at render time, outside
`group_by_day`.  Timed events likewise carry their formatted clock times. -/
theorem C8_amended (tz : Int) (cal : String) (occ : RawOcc) (d : Int)
    (hs : occ.dtstart = .dateOnly d) :
    (parse_ics_event tz cal occ).is_all_day = true ∧
      (group_item tz (parse_ics_event tz cal occ)).start_str = "00:00" ∧
      (occ.dtend = none →
        (group_item tz (parse_ics_event tz cal occ)).end_str = "00:00") := by
  have key : ∀ x : Int, fmt_hm tz (x * 86400 - tz) = "00:00" := by
    intro x
    have h1 : (x * 86400 - tz + tz) % 86400 = 0 := by omega
    simp only [fmt_hm]
    rw [h1]
    rfl
  have hst : (parse_ics_event tz cal occ).start = d * 86400 - tz := by
    simp [parse_ics_event, hs, localize]
  refine ⟨by simp [parse_ics_event, hs], ?_, ?_⟩
  · show fmt_hm tz (parse_ics_event tz cal occ).start = "00:00"
    rw [hst]
    exact key d
  · intro he
    have hed : (parse_ics_event tz cal occ).end_ = (d + 1) * 86400 - tz := by
      simp only [parse_ics_event, hs, he, localize]
      ring
    show fmt_hm tz (parse_ics_event tz cal occ).end_ = "00:00"
    rw [hed]
    exact key (d + 1)

/-- Witness for `C8_amended` at a concrete all-day occurrence with a
nonzero timezone offset. -/
theorem C8_amended_witness :
    (parse_ics_event 3600 "A" (RawOcc.mk "VEVENT" "t" "" (.dateOnly 2) none)).is_all_day
        = true ∧
      (group_item 3600
          (parse_ics_event 3600 "A" (RawOcc.mk "VEVENT" "t" "" (.dateOnly 2) none))).start_str
        = "00:00" ∧
      (group_item 3600
          (parse_ics_event 3600 "A" (RawOcc.mk "VEVENT" "t" "" (.dateOnly 2) none))).end_str
        = "00:00" := by
  have h := C8_amended 3600 "A" (RawOcc.mk "VEVENT" "t" "" (.dateOnly 2) none) 2 rfl
  exact ⟨h.1, h.2.1, h.2.2 rfl⟩

/-- The warning `main` prints when a feed fails:
`[WARN] Calendar <name> failed: <error>` (quote characters elided). -/
def warn_msg (name e : String) : String :=
  "[WARN] Calendar " ++ name ++ " failed: " ++ e

/-- The per-feed loop of `main`.  Each configured feed is a name together
with the outcome of fetching and parsing its ICS data: `.error` when the
network request, HTTP status or calendar parsing raised (the
`except`-caught cases), `.ok` with the expanded raw occurrences otherwise.
A failed feed contributes a warning and no events; a successful feed
contributes its normalized, window-filtered events, appended in feed
order. -/
def process_feeds (tz ws we : Int)
    (feeds : List (String × Except String (List RawOcc))) :
    List Event × List String :=
  feeds.foldl
    (fun acc feed =>
      match feed.2 with
      | .error e => (acc.1, acc.2 ++ [warn_msg feed.1 e])
      | .ok comps =>
          (acc.1 ++ (parse_ics tz feed.1 comps).filter (fun ev => within_range ev ws we),
            acc.2))
    ([], [])

/-- `process_feeds` from an arbitrary accumulator splits off the
accumulator. -/
theorem process_feeds_foldl_acc (tz ws we : Int)
    (feeds : List (String × Except String (List RawOcc))) :
    ∀ acc : List Event × List String,
      feeds.foldl
          (fun acc feed =>
            match feed.2 with
            | .error e => (acc.1, acc.2 ++ [warn_msg feed.1 e])
            | .ok comps =>
                (acc.1 ++ (parse_ics tz feed.1 comps).filter (fun ev => within_range ev ws we),
                  acc.2))
          acc =
        (acc.1 ++ (process_feeds tz ws we feeds).1, acc.2 ++ (process_feeds tz ws we feeds).2) := by
  induction feeds with
  | nil => intro acc; simp [process_feeds]
  | cons f rest ih =>
    intro acc
    rcases f with ⟨name, r⟩
    cases r with
    | error e =>
      rw [List.foldl_cons]
      rw [show process_feeds tz ws we ((name, Except.error e) :: rest)
            = rest.foldl _ (([] : List Event), [warn_msg name e]) from rfl]
      rw [ih (acc.1, acc.2 ++ [warn_msg name e]), ih (([] : List Event), [warn_msg name e])]
      simp
    | ok comps =>
      rw [List.foldl_cons]
      rw [show process_feeds tz ws we ((name, Except.ok comps) :: rest)
            = rest.foldl _
                ((parse_ics tz name comps).filter (fun ev => within_range ev ws we), ([] : List String))
              from rfl]
      rw [ih, ih ((parse_ics tz name comps).filter (fun ev => within_range ev ws we), ([] : List String))]
      simp

/-- Claim C9: a feed whose fetch or parse fails contributes zero events — the
event output over any feed list containing it equals the output with that
feed removed, which itself is the concatenation of the per-feed results of
the remaining feeds — and a warning naming the failed feed is emitted,
leaving every other feed's warnings and in-window events intact. -/
theorem C9_feed_failure_isolated (tz ws we : Int)
    (fs1 fs2 : List (String × Except String (List RawOcc))) (name err : String) :
    (process_feeds tz ws we (fs1 ++ (name, Except.error err) :: fs2)).1 =
        (process_feeds tz ws we (fs1 ++ fs2)).1 ∧
      (process_feeds tz ws we (fs1 ++ fs2)).1 =
        (process_feeds tz ws we fs1).1 ++ (process_feeds tz ws we fs2).1 ∧
      (process_feeds tz ws we (fs1 ++ (name, Except.error err) :: fs2)).2 =
        (process_feeds tz ws we fs1).2 ++ warn_msg name err :: (process_feeds tz ws we fs2).2 ∧
      warn_msg name err ∈ (process_feeds tz ws we (fs1 ++ (name, Except.error err) :: fs2)).2 := by
  have hsplit : ∀ (a b : List (String × Except String (List RawOcc))),
      process_feeds tz ws we (a ++ b) =
        ((process_feeds tz ws we a).1 ++ (process_feeds tz ws we b).1,
          (process_feeds tz ws we a).2 ++ (process_feeds tz ws we b).2) := by
    intro a b
    rw [process_feeds, List.foldl_append]
    rw [show List.foldl _ (([] : List Event), ([] : List String)) a = process_feeds tz ws we a
          from rfl]
    exact process_feeds_foldl_acc tz ws we b _
  have hbad : process_feeds tz ws we [(name, Except.error err)] = ([], [warn_msg name err]) := by
    rfl
  refine ⟨?_, ?_, ?_, ?_⟩
  · rw [show fs1 ++ (name, Except.error err) :: fs2
          = (fs1 ++ [(name, Except.error err)]) ++ fs2 by simp,
      hsplit (fs1 ++ [(name, Except.error err)]) fs2, hsplit fs1 [(name, Except.error err)],
      hbad, hsplit fs1 fs2]
    simp
  · exact congrArg Prod.fst (hsplit fs1 fs2)
  · rw [show fs1 ++ (name, Except.error err) :: fs2
          = (fs1 ++ [(name, Except.error err)]) ++ fs2 by simp,
      hsplit (fs1 ++ [(name, Except.error err)]) fs2, hsplit fs1 [(name, Except.error err)],
      hbad]
    simp
  · rw [show fs1 ++ (name, Except.error err) :: fs2
          = (fs1 ++ [(name, Except.error err)]) ++ fs2 by simp,
      hsplit (fs1 ++ [(name, Except.error err)]) fs2, hsplit fs1 [(name, Except.error err)],
      hbad]
    simp

end CalendarAssistant
